import Mathlib

/-!
Verification development for the font / text-layout core (`core/src/font.rs`).

Shallow embedding conventions:
* `Twips` (an `i32` newtype) is embedded as `ℤ`.
* Text (`WStr`) is embedded as `List Char`, one unit per character; the
  source's per-character decode-failure substitution of the replacement
  character is assumed already applied to the list, since every operation
  below first folds failures into a plain character.
* The source computes scaled advances as
  `(advance as f32 * (height as f32 / scale)) as i32`; we embed this as the
  exact rational value truncated toward zero, i.e. `Int.tdiv (advance * height) scale`
  with the font scale kept as the integer constant (1024 or 20480).  All
  concrete evaluations in this file use values on which the `f32`
  computation is exact.
* `fnv::FnvHashMap` built by a sequence of `insert`s is embedded as an
  association list where each insert prepends its entry; `List.lookup`
  (first match wins) then returns exactly what the hash map would.
* The per-glyph lazy caches (`shape`, `shape_handle`) and the glyph shape
  payload are omitted: they carry no metric information and are not
  observable by any layout operation modelled here.
-/

namespace Font

/-- A glyph record as stored in the font: its character code (a `u16` in the
source) and its advance width in EM-square units (`swf_glyph.advance`,
converted to `i32` by the source before use). The shape payload and the two
lazily-populated caches are omitted (see the header comment). -/
structure SwfGlyph where
  code : ℕ
  advance : ℤ
  deriving DecidableEq, Repr

/-- One kerning record of the source font's layout table
(`left_code`, `right_code` are `u16`s, `adjustment` is a `Twips`). -/
structure KerningRecord where
  leftCode : ℕ
  rightCode : ℕ
  adjustment : ℤ
  deriving DecidableEq, Repr

/-- The optional layout block of a source font tag (`swf::FontLayout`). -/
structure FontLayout where
  ascent : ℕ
  descent : ℕ
  leading : ℤ
  kerning : List KerningRecord
  deriving DecidableEq, Repr

/-- Identity of a font (`FontDescriptor`): name plus style flags. -/
structure FontDescriptor where
  name : List Char
  isBold : Bool
  isItalic : Bool
  deriving DecidableEq, Repr

/-- The already-parsed source font record (`swf::Font`), at the interface
boundary the spec describes: named glyph list, optional layout block and the
version flag that selects the scale constant. -/
structure SwfFontTag where
  name : List Char
  isBold : Bool
  isItalic : Bool
  version : ℕ
  glyphs : List SwfGlyph
  layout : Option FontLayout
  deriving DecidableEq, Repr

/-- The immutable font record (`FontData`). `codePointToGlyph` and
`kerningPairs` are association lists standing for the source's hash maps
(first match wins; see the header comment). `scale` is the integer scale
constant (1024 or 20480). -/
structure FontData where
  glyphs : List SwfGlyph
  codePointToGlyph : List (ℕ × ℕ)
  scale : ℤ
  kerningPairs : List ((ℕ × ℕ) × ℤ)
  ascent : ℕ
  descent : ℕ
  leading : ℤ
  descriptor : FontDescriptor
  deriving DecidableEq, Repr

/-- Parameters necessary to evaluate a font (`EvalParameters`): glyph height
and letter spacing in twips, and the kerning enable flag. -/
structure EvalParameters where
  height : ℤ
  letterSpacing : ℤ
  kerning : Bool
  deriving DecidableEq, Repr

/-- `EvalParameters::from_parts`. -/
def EvalParameters.fromParts (height letterSpacing : ℤ) (kerning : Bool) : EvalParameters :=
  { height := height, letterSpacing := letterSpacing, kerning := kerning }

/-- The null character, used by `evaluate` when peeking past the last
character of the run. -/
def nulChar : Char := Char.ofNat 0

/-- Index of the first occurrence of `target`, mirroring `str::find` as used
by `FontDescriptor::from_parts` (`name.find('\0')`). -/
def findChar (target : Char) : List Char → ℕ → Option ℕ
  | [], _ => none
  | c :: rest, i => if c = target then some i else findChar target rest (i + 1)

/-- `FontDescriptor::from_parts`: truncate the name at its first NUL
character, store the style flags unchanged. -/
def FontDescriptor.fromParts (nameArg : List Char) (bold italic : Bool) : FontDescriptor :=
  let truncated :=
    match findChar nulChar nameArg 0 with
    | some firstNull => nameArg.take firstNull
    | none => nameArg
  { name := truncated, isBold := bold, isItalic := italic }

/-- `FontDescriptor::class`: the stored font class name. (The source method
is called `class`, which is a reserved word in Lean.) -/
def FontDescriptor.className (d : FontDescriptor) : List Char := d.name

/-- `FontDescriptor::bold`. -/
def FontDescriptor.bold (d : FontDescriptor) : Bool := d.isBold

/-- `FontDescriptor::italic`. -/
def FontDescriptor.italic (d : FontDescriptor) : Bool := d.isItalic

/-- `FontDescriptor::from_swf_tag`: the tag's name (already decoded) and its
style flags. -/
def FontDescriptor.fromSwfTag (tag : SwfFontTag) : FontDescriptor :=
  { name := tag.name, isBold := tag.isBold, isItalic := tag.isItalic }

/-- Enumeration of a list with indices starting at `i`; used to embed the
source's `tag.glyphs.into_iter().enumerate()`. -/
def enumFrom : ℕ → List α → List (ℕ × α)
  | _, [] => []
  | i, a :: rest => (i, a) :: enumFrom (i + 1) rest

/-- `Font::from_swf_tag`: build the immutable font record. Each glyph's
code is inserted into `code_point_to_glyph` with its index (later inserts
shadow earlier ones, modelled by prepending); the kerning table is collected
from the layout block if present; the scale constant is chosen by the tag
version (DefineFont3 stores coordinates at 20x the scale, SWF19 p.164).
The eager ASCII shape registration is a pure side effect on the renderer and
does not appear in the record. -/
def fromSwfTag (tag : SwfFontTag) : FontData :=
  let asc_desc_lead :=
    match tag.layout with
    | some layout => (layout.ascent, layout.descent, layout.leading)
    | none => (0, 0, 0)
  { glyphs := tag.glyphs
    codePointToGlyph :=
      (enumFrom 0 tag.glyphs).foldl (fun m p => (p.2.code, p.1) :: m) []
    scale := if tag.version ≥ 3 then 20480 else 1024
    kerningPairs :=
      match tag.layout with
      | some layout =>
          layout.kerning.foldl
            (fun m k => ((k.leftCode, k.rightCode), k.adjustment) :: m) []
      | none => []
    ascent := asc_desc_lead.1
    descent := asc_desc_lead.2.1
    leading := asc_desc_lead.2.2
    descriptor := FontDescriptor.fromSwfTag tag }

/-- `Font::has_glyphs`. -/
def hasGlyphs (f : FontData) : Bool := !f.glyphs.isEmpty

/-- `Font::get_glyph`: bounds-checked index into the glyph table. -/
def getGlyph (f : FontData) (i : ℕ) : Option SwfGlyph := f.glyphs.get? i

/-- `Font::get_glyph_for_char`: the character is converted to a `u16`
(`c as u16` truncates to the low 16 bits), then looked up in
`code_point_to_glyph` and resolved through `get_glyph`. -/
def getGlyphForChar (f : FontData) (c : Char) : Option SwfGlyph :=
  match f.codePointToGlyph.lookup (c.toNat % 65536) with
  | some index => getGlyph f index
  | none => none

/-- `Font::get_kerning_offset`: both characters truncated to `u16`, pair
looked up in the kerning table, zero when absent. -/
def getKerningOffset (f : FontData) (left right : Char) : ℤ :=
  (f.kerningPairs.lookup (left.toNat % 65536, right.toNat % 65536)).getD 0

/-- `Font::has_kerning_info`. -/
def hasKerningInfo (f : FontData) : Bool := !f.kerningPairs.isEmpty

/-- Truncated scaling `(v as f32 * (height as f32 / scale as f32)) as i32`,
embedded exactly as rational multiplication truncated toward zero (which is
what the `as i32` cast does): `⌊v * height / scale⌋` toward zero. -/
def scaleTrunc (v height scale : ℤ) : ℤ := Int.tdiv (v * height) scale

/-- The scaled advance of one glyph in `Font::evaluate`: the raw advance,
plus the kerning offset with the next character when kerning is enabled and
the font has kerning pairs, scaled by `height / scale` and truncated, plus
the letter spacing (applied after scaling). -/
def scaledAdvance (f : FontData) (p : EvalParameters) (g : SwfGlyph)
    (c next : Char) : ℤ :=
  scaleTrunc
    (g.advance +
      (if hasKerningInfo f && p.kerning then getKerningOffset f c next else 0))
    p.height f.scale
  + p.letterSpacing

/-- One invocation of `evaluate`'s per-glyph callback: character position in
the text, the glyph, its scaled advance, and the horizontal cursor `x`
before the glyph. The callback's transform carries translation
`(baseTx + x, baseTy + params.height)` and is recovered from these fields. -/
structure PlacedGlyph where
  pos : ℕ
  glyph : SwfGlyph
  advance : ℤ
  x : ℤ
  deriving DecidableEq, Repr

/-- The character loop of `Font::evaluate`: walk the text, skip characters
with no glyph, and emit one `PlacedGlyph` per resolvable character, peeking
at the next character (or NUL) for kerning and stepping the cursor by each
scaled advance. -/
def evalLoop (f : FontData) (p : EvalParameters) :
    List Char → ℕ → ℤ → List PlacedGlyph
  | [], _, _ => []
  | c :: rest, pos, x =>
    match getGlyphForChar f c with
    | none => evalLoop f p rest (pos + 1) x
    | some g =>
        { pos := pos, glyph := g,
          advance := scaledAdvance f p g c (rest.headD nulChar), x := x }
          :: evalLoop f p rest (pos + 1)
              (x + scaledAdvance f p g c (rest.headD nulChar))

/-- `Font::evaluate`: the sequence of per-glyph callback invocations, in
order. The base transform's translation only offsets the reported
translations uniformly and is kept outside the records (see `PlacedGlyph`). -/
def evaluate (f : FontData) (text : List Char) (p : EvalParameters) :
    List PlacedGlyph :=
  evalLoop f p text 0 0

/-- `round_down_to_pixel`: round a twips value down to the nearest whole
pixel (20 twips). -/
def roundDownToPixel (t : ℤ) : ℤ := 20 * Int.fdiv t 20

/-- The width accumulator of `Font::measure`: the maximum over all glyph
callbacks of the right edge `tx + advance` (the base transform is the
identity, so `tx = x`), rounded down to a pixel first when `round` is set,
starting from zero. -/
def measureWidth (f : FontData) (text : List Char) (p : EvalParameters)
    (round : Bool) : ℤ :=
  (evaluate f text p).foldl
    (fun w r =>
      max w (if round then roundDownToPixel (r.x + r.advance) else r.x + r.advance))
    0

/-- The height accumulator of `Font::measure` before the empty-text floor:
the maximum over all glyph callbacks of the vertical translation
`ty = params.height` (identity base transform), rounded when `round` is
set, starting from zero. -/
def measureHeightRaw (f : FontData) (text : List Char) (p : EvalParameters)
    (round : Bool) : ℤ :=
  (evaluate f text p).foldl
    (fun h _ => max h (if round then roundDownToPixel p.height else p.height))
    0

/-- The height returned by `Font::measure`: the raw maximum, floored by
`params.height` when the text is empty. -/
def measureHeight (f : FontData) (text : List Char) (p : EvalParameters)
    (round : Bool) : ℤ :=
  if text.isEmpty then max (measureHeightRaw f text p round) p.height
  else measureHeightRaw f text p round

/-- `Font::measure`: drive `evaluate` with the identity base transform,
folding the maximum right edge `tx + advance` into the width and the maximum
vertical translation `ty = params.height` into the height (each rounded down
to a pixel first when `round` is set), with the empty-text height floor. -/
def measure (f : FontData) (text : List Char) (p : EvalParameters)
    (round : Bool) : ℤ × ℤ :=
  (measureWidth f text p round, measureHeight f text p round)

/-- Modelled from the spec: `WStr::split(b' ')` is repository code outside
the supplied sources; per the spec the text is split on the ASCII space
character with Rust `split` semantics (empty pieces kept). This helper
returns each word as a `(start, end)` index pair, accumulating the current
word's start. -/
def splitAux : List Char → ℕ → ℕ → List (ℕ × ℕ)
  | [], pos, wordStart => [(wordStart, pos)]
  | c :: rest, pos, wordStart =>
    if c = ' ' then (wordStart, pos) :: splitAux rest (pos + 1) (pos + 1)
    else splitAux rest (pos + 1) wordStart

/-- The words of the text as `(start, end)` index pairs (see `splitAux`). -/
def splitWords (text : List Char) : List (ℕ × ℕ) := splitAux text 0 0

/-- The slice measured for one word in `wrap_line`:
`text.slice(word_start..word_end + 1).unwrap_or(word)` — the word plus one
trailing space when in range, the bare word otherwise (only the last word is
out of range). -/
def wordSeg (text : List Char) (ws we : ℕ) : List Char :=
  if we + 1 ≤ text.length then (text.drop ws).take (we + 1 - ws)
  else (text.drop ws).take (we - ws)

/-- The character-level fallback loop of `wrap_line` (the overlong-word
failsafe), relative to the word start. Arguments mirror the source loop
state: the remaining fragment ends to visit (the char indices of `curSlice`
after the pre-consumed index 0), `last_passing_breakpoint.0`,
`prev_frag_end`, and `prev_char_index - word_start`. -/
def fbLoop (f : FontData) (curSlice : List Char) (p : EvalParameters)
    (rem : ℤ) : List ℕ → ℤ → ℕ → ℕ → ℕ
  | [], lpb, prevFrag, prevCharRel =>
    if lpb < rem then prevFrag else prevCharRel
  | fe :: restFe, lpb, prevFrag, prevCharRel =>
    if lpb < rem then
      fbLoop f curSlice p rem restFe
        ((measure f (curSlice.take fe) p false).1) fe prevFrag
    else prevCharRel

/-- The full character-level fallback of `wrap_line` at a word starting at
`ws`: scan `cur_slice = text[ws..]`, measuring growing fragments, and return
the resulting absolute break index. -/
def fallbackScan (f : FontData) (text : List Char) (p : EvalParameters)
    (ws : ℕ) (rem : ℤ) : ℕ :=
  let curSlice := text.drop ws
  ws + fbLoop f curSlice p rem (List.range' 1 (curSlice.length - 1)) 0 0 0

/-- The word loop of `wrap_line`, instrumented: the first component is the
source's return value, the second is ghost information recording — when the
character-level fallback branch is entered — the value of `line_end` at that
moment (`none` when the fallback is never entered). -/
def wrapLoop (f : FontData) (text : List Char) (p : EvalParameters) :
    List (ℕ × ℕ) → ℤ → ℕ → Bool → Option ℕ × Option ℕ
  | [], _, _, _ => (none, none)
  | (ws, we) :: rest, rem, lineEnd, isStart =>
    let m := (measure f (wordSeg text ws we) p false).1
    if isStart ∧ m > rem then
      (some (fallbackScan f text p ws rem), some lineEnd)
    else if m > rem then
      (some lineEnd, none)
    else
      let lineEnd' := we
      let isStart' := isStart && (text.take lineEnd').all (fun c => c = ' ')
      let rem' := rem - m
      if rem' < 0 then (some we, none)
      else wrapLoop f text p rest rem' lineEnd' isStart'

/-- `Font::wrap_line`: find the first break index of `text` under the width
budget, `none` when the whole text fits. `remaining = width - offset` is
checked for negativity before the word loop. The update of
`is_start_of_line` uses `text[0..line_end].trim().is_empty()`; `WStr::trim`
is repository code outside the supplied sources and is modelled from the
spec, which describes the check as "leading runs of spaces don't falsely
count as non-start", i.e. the accepted prefix consists of spaces only. -/
def wrapLine (f : FontData) (text : List Char) (p : EvalParameters)
    (width offset : ℤ) (isStart : Bool) : Option ℕ :=
  if width - offset < 0 then some 0
  else (wrapLoop f text p (splitWords text) (width - offset) 0 isStart).1

/-- Ghost companion of `wrapLine` (see `wrapLoop`): the `line_end` value at
the moment the character-level fallback is entered, `none` when it is not. -/
def wrapLineFb (f : FontData) (text : List Char) (p : EvalParameters)
    (width offset : ℤ) (isStart : Bool) : Option ℕ :=
  if width - offset < 0 then none
  else (wrapLoop f text p (splitWords text) (width - offset) 0 isStart).2

/-- Concrete source font tag used to evaluate the development on explicit
inputs: one glyph for `'a'` with advance 200, no layout block, version 1
(scale constant 1024). -/
def testTag : SwfFontTag :=
  { name := ['T'], isBold := false, isItalic := false, version := 1,
    glyphs := [{ code := 97, advance := 200 }], layout := none }

/-- The font built from `testTag`. -/
def testFont : FontData := fromSwfTag testTag

/-- Concrete source font tag with a kerning table: glyphs for `'a'`
(advance 1) and `'b'` (advance 5), and a kerning adjustment of 1 for the
pair `('a', 'b')`. -/
def kernTag : SwfFontTag :=
  { name := ['K'], isBold := false, isItalic := false, version := 1,
    glyphs := [{ code := 97, advance := 1 }, { code := 98, advance := 5 }],
    layout := some
      { ascent := 0, descent := 0, leading := 0,
        kerning := [{ leftCode := 97, rightCode := 98, adjustment := 1 }] } }

/-- The font built from `kernTag`. -/
def kernFont : FontData := fromSwfTag kernTag

/-- Evaluation parameters: height 1024 twips (so the scale factor for a
1024-unit font is exactly 1), no letter spacing, kerning off. -/
def p1024 : EvalParameters := EvalParameters.fromParts 1024 0 false

/-- Evaluation parameters: height 512 twips (scale factor 1/2 for a
1024-unit font), no letter spacing, kerning on. -/
def pHalfOn : EvalParameters := EvalParameters.fromParts 512 0 true

/-- Evaluation parameters: height 512 twips, no letter spacing, kerning
off. -/
def pHalfOff : EvalParameters := EvalParameters.fromParts 512 0 false

/-- Evaluation parameters with a negative height (a `Twips` is a signed
`i32`, so this is a representable input). -/
def pNegHeight : EvalParameters := EvalParameters.fromParts (-20) 0 false

/-- Evaluation parameters with letter spacing -300 twips (negative letter
spacing is representable and produced by negative `letterSpacing` styles). -/
def pNegSpacing : EvalParameters := EvalParameters.fromParts 1024 (-300) false

/-- The amended characterization of the overlong-word fallback result,
relative to the word start: the scan stops at the first fragment length
whose measured width reaches `rem` (strict `<` keeps it going), returning
one less than that length; if no fragment among lengths `1 .. len - 1`
reaches `rem`, the scan exhausts the slice and returns `len - 1`. -/
def fbSpec (f : FontData) (text : List Char) (p : EvalParameters)
    (rem : ℤ) : ℕ :=
  match (List.range' 1 (text.length - 1)).find?
      (fun j => decide (rem ≤ (measure f (text.take j) p false).1)) with
  | some m => m - 1
  | none => text.length - 1

/-! ### Render-mode descriptor -/

/-- `swf::TextGridFit`: the grid-fitting hint carried by render settings. -/
inductive TextGridFit
  | None
  | Pixel
  | SubPixel
  deriving DecidableEq, Repr

/-- `TextRenderSettings`: the text rendering engine selection, carrying
`grid_fit`, `thickness` and `sharpness` in both variants (they are retained
when switching engines). The two `f32` fields are carried opaquely (never
computed with) and are embedded as `ℚ`. -/
inductive TextRenderSettings
  | Normal (gridFit : TextGridFit) (thickness : ℚ) (sharpness : ℚ)
  | Advanced (gridFit : TextGridFit) (thickness : ℚ) (sharpness : ℚ)
  deriving DecidableEq, Repr

namespace TextRenderSettings

/-- `TextRenderSettings::is_advanced`. -/
def isAdvanced : TextRenderSettings → Bool
  | Advanced _ _ _ => true
  | Normal _ _ _ => false

/-- `TextRenderSettings::with_advanced_rendering`. -/
def withAdvancedRendering : TextRenderSettings → TextRenderSettings
  | Advanced gridFit thickness sharpness => Advanced gridFit thickness sharpness
  | Normal gridFit thickness sharpness => Advanced gridFit thickness sharpness

/-- `TextRenderSettings::with_normal_rendering`. -/
def withNormalRendering : TextRenderSettings → TextRenderSettings
  | Normal gridFit thickness sharpness => Normal gridFit thickness sharpness
  | Advanced gridFit thickness sharpness => Normal gridFit thickness sharpness

/-- `TextRenderSettings::sharpness`. -/
def sharpness : TextRenderSettings → ℚ
  | Normal _ _ sharpness => sharpness
  | Advanced _ _ sharpness => sharpness

/-- `TextRenderSettings::with_sharpness`. -/
def withSharpness : TextRenderSettings → ℚ → TextRenderSettings
  | Normal gridFit thickness _, sharpness => Normal gridFit thickness sharpness
  | Advanced gridFit thickness _, sharpness => Advanced gridFit thickness sharpness

/-- `TextRenderSettings::thickness`. -/
def thickness : TextRenderSettings → ℚ
  | Normal _ thickness _ => thickness
  | Advanced _ thickness _ => thickness

/-- `TextRenderSettings::with_thickness`. -/
def withThickness : TextRenderSettings → ℚ → TextRenderSettings
  | Normal gridFit _ sharpness, thickness => Normal gridFit thickness sharpness
  | Advanced gridFit _ sharpness, thickness => Advanced gridFit thickness sharpness

/-- `TextRenderSettings::grid_fit`. -/
def gridFit : TextRenderSettings → TextGridFit
  | Normal gridFit _ _ => gridFit
  | Advanced gridFit _ _ => gridFit

/-- `TextRenderSettings::with_grid_fit`. -/
def withGridFit : TextRenderSettings → TextGridFit → TextRenderSettings
  | Normal _ thickness sharpness, gridFit => Normal gridFit thickness sharpness
  | Advanced _ thickness sharpness, gridFit => Advanced gridFit thickness sharpness

/-- `Default for TextRenderSettings`. -/
def default : TextRenderSettings := Normal TextGridFit.Pixel 0 0

end TextRenderSettings

/-! ### Helper lemmas about association lists and enumeration -/

theorem lookup_mem {α β : Type} [DecidableEq α] (a : α) (b : β) :
    ∀ (l : List (α × β)), List.lookup a l = some b → (a, b) ∈ l
  | [], h => by simp [List.lookup] at h
  | (k, v) :: rest, h => by
    by_cases hk : a = k
    · subst hk
      simp [List.lookup] at h
      subst h
      exact List.mem_cons_self _ _
    · have hbeq : (a == k) = false := by simpa using hk
      simp only [List.lookup, hbeq] at h
      exact List.mem_cons_of_mem _ (lookup_mem a b rest h)

theorem foldl_prepend {α β : Type} (f : α → β) :
    ∀ (l : List α) (m : List β),
      l.foldl (fun acc a => f a :: acc) m = (l.map f).reverse ++ m
  | [], _ => rfl
  | a :: rest, m => by
    simp only [List.foldl_cons, List.map_cons, List.reverse_cons,
      List.append_assoc, List.singleton_append]
    exact foldl_prepend f rest (f a :: m)

theorem mem_enumFrom {α : Type} :
    ∀ (l : List α) (i j : ℕ) (a : α), (j, a) ∈ enumFrom i l →
      i ≤ j ∧ l.get? (j - i) = some a
  | [], i, j, a, h => by simp [enumFrom] at h
  | b :: rest, i, j, a, h => by
    rcases List.mem_cons.1 h with h1 | h2
    · rw [Prod.mk.injEq] at h1
      obtain ⟨rfl, rfl⟩ := h1
      simp
    · have ih := mem_enumFrom rest (i + 1) j a h2
      refine ⟨by omega, ?_⟩
      have hj : j - i = (j - (i + 1)) + 1 := by omega
      rw [hj]
      simpa using ih.2

theorem enumFrom_pairwise {α : Type} :
    ∀ (l : List α) (i : ℕ),
      List.Pairwise (fun p q : ℕ × α => p.1 < q.1) (enumFrom i l)
  | [], _ => List.Pairwise.nil
  | a :: rest, i => by
    refine List.Pairwise.cons (fun q hq => ?_) (enumFrom_pairwise rest (i + 1))
    obtain ⟨j, b⟩ := q
    have h := mem_enumFrom rest (i + 1) j b hq
    simp only at h ⊢
    omega

theorem cpg_eq (tag : SwfFontTag) :
    (fromSwfTag tag).codePointToGlyph
      = ((enumFrom 0 tag.glyphs).map
          (fun p : ℕ × SwfGlyph => (p.2.code, p.1))).reverse := by
  simp only [fromSwfTag]
  rw [foldl_prepend (fun p : ℕ × SwfGlyph => (p.2.code, p.1))]
  simp

theorem lookup_cpg (tag : SwfFontTag) (c j : ℕ)
    (h : List.lookup c (fromSwfTag tag).codePointToGlyph = some j) :
    ∃ g, tag.glyphs.get? j = some g ∧ g.code = c := by
  have hm : (c, j) ∈ (fromSwfTag tag).codePointToGlyph := lookup_mem c j _ h
  rw [cpg_eq, List.mem_reverse] at hm
  obtain ⟨p, hp, hpe⟩ := List.mem_map.1 hm
  obtain ⟨i, g⟩ := p
  rw [Prod.mk.injEq] at hpe
  obtain ⟨hc, hj⟩ := hpe
  have hj2 : i = j := hj
  have hc2 : g.code = c := hc
  rw [hj2] at hp
  have hg := (mem_enumFrom tag.glyphs 0 j g hp).2
  simp only [Nat.sub_zero] at hg
  exact ⟨g, hg, hc2⟩

/-! ### Helper lemmas about `measure` -/

theorem foldl_max_init_le {α : Type} (g : α → ℤ) :
    ∀ (l : List α) (a : ℤ), a ≤ l.foldl (fun w x => max w (g x)) a
  | [], a => le_refl a
  | x :: rest, a =>
    le_trans (le_max_left a (g x)) (foldl_max_init_le g rest (max a (g x)))

theorem measure_width_nonneg (f : FontData) (text : List Char)
    (p : EvalParameters) (round : Bool) : 0 ≤ (measure f text p round).1 := by
  show (0 : ℤ) ≤ measureWidth f text p round
  exact foldl_max_init_le _ _ 0

theorem foldl_max_const {α : Type} (c : ℤ) :
    ∀ (l : List α) (a : ℤ), l ≠ [] → l.foldl (fun h _ => max h c) a = max a c
  | [], _, hne => absurd rfl hne
  | [_], a, _ => rfl
  | _ :: y :: rest, a, _ => by
    have ih := foldl_max_const c (y :: rest) (max a c) (by simp)
    simp only [List.foldl_cons] at ih ⊢
    rw [ih, max_assoc, max_self]

/-! ### Helper lemmas about `evaluate` -/

theorem evalLoop_map_pos (f : FontData) (p : EvalParameters) :
    ∀ (text : List Char) (pos : ℕ) (x : ℤ),
      (evalLoop f p text pos x).map (fun r => r.pos)
        = ((enumFrom pos text).filter
            (fun q => (getGlyphForChar f q.2).isSome)).map (fun q => q.1)
  | [], _, _ => rfl
  | c :: rest, pos, x => by
    cases h : getGlyphForChar f c with
    | none =>
      simp only [evalLoop, h, enumFrom, List.filter_cons, Option.isSome_none,
        Bool.false_eq_true, if_false]
      exact evalLoop_map_pos f p rest (pos + 1) x
    | some g =>
      simp only [evalLoop, h, enumFrom, List.filter_cons, Option.isSome_some,
        if_true, List.map_cons]
      exact congrArg (List.cons pos) (evalLoop_map_pos f p rest (pos + 1) _)

theorem evalLoop_head_x (f : FontData) (p : EvalParameters) :
    ∀ (text : List Char) (pos : ℕ) (x : ℤ) (r : PlacedGlyph),
      (evalLoop f p text pos x).head? = some r → r.x = x
  | [], _, _, _ => by simp [evalLoop]
  | c :: rest, pos, x, r => by
    cases h : getGlyphForChar f c with
    | none =>
      intro hh
      apply evalLoop_head_x f p rest (pos + 1) x r
      simpa only [evalLoop, h] using hh
    | some g =>
      intro hh
      simp only [evalLoop, h, List.head?_cons, Option.some.injEq] at hh
      cases hh
      rfl

theorem evalLoop_chain_x (f : FontData) (p : EvalParameters) :
    ∀ (text : List Char) (pos : ℕ) (x : ℤ),
      List.Chain' (fun r s : PlacedGlyph => s.x = r.x + r.advance)
        (evalLoop f p text pos x)
  | [], _, _ => by simp [evalLoop]
  | c :: rest, pos, x => by
    cases h : getGlyphForChar f c with
    | none =>
      simpa only [evalLoop, h] using evalLoop_chain_x f p rest (pos + 1) x
    | some g =>
      simp only [evalLoop, h]
      refine (List.chain'_cons').2
        ⟨fun s hs => ?_, evalLoop_chain_x f p rest (pos + 1) _⟩
      have hx := evalLoop_head_x f p rest (pos + 1) _ s (Option.mem_def.1 hs)
      simpa using hx

theorem evalLoop_x_mono (f : FontData) (p : EvalParameters) :
    ∀ (text : List Char) (pos : ℕ) (x : ℤ),
      (∀ r ∈ evalLoop f p text pos x, 0 ≤ r.advance) →
      List.Chain' (fun a b : ℤ => a ≤ b)
        ((evalLoop f p text pos x).map (fun r => r.x))
  | [], _, _, _ => by simp [evalLoop]
  | c :: rest, pos, x, hadv => by
    cases h : getGlyphForChar f c with
    | none =>
      have hadv2 : ∀ r ∈ evalLoop f p rest (pos + 1) x, 0 ≤ r.advance := by
        intro r hr
        apply hadv
        simp only [evalLoop, h]
        exact hr
      simpa only [evalLoop, h] using evalLoop_x_mono f p rest (pos + 1) x hadv2
    | some g =>
      have hadv0 : (0 : ℤ) ≤ scaledAdvance f p g c (rest.headD nulChar) := by
        have hm := hadv
          { pos := pos, glyph := g,
            advance := scaledAdvance f p g c (rest.headD nulChar), x := x }
          (by simp [evalLoop, h])
        simpa using hm
      have hrec : ∀ r ∈ evalLoop f p rest (pos + 1)
          (x + scaledAdvance f p g c (rest.headD nulChar)), 0 ≤ r.advance := by
        intro r hr
        apply hadv
        simp only [evalLoop, h]
        exact List.mem_cons_of_mem _ hr
      simp only [evalLoop, h, List.map_cons]
      refine (List.chain'_cons').2
        ⟨fun b hb => ?_, evalLoop_x_mono f p rest (pos + 1) _ hrec⟩
      rw [List.head?_map] at hb
      obtain ⟨s, hs, rfl⟩ := Option.map_eq_some'.1 (Option.mem_def.1 hb)
      have hx := evalLoop_head_x f p rest (pos + 1) _ s hs
      have hle : x ≤ s.x := by rw [hx]; omega
      exact hle

theorem pos_list_chain (f : FontData) (text : List Char) (pos0 : ℕ) :
    List.Chain' (fun a b : ℕ => a < b)
      (((enumFrom pos0 text).filter
          (fun q => (getGlyphForChar f q.2).isSome)).map (fun q => q.1)) := by
  apply List.Pairwise.chain'
  rw [List.pairwise_map]
  exact List.Pairwise.sublist (List.filter_sublist _)
    (enumFrom_pairwise text pos0)

/-! ### Helper lemmas about word splitting -/

theorem splitAux_no_space :
    ∀ (text : List Char) (pos ws : ℕ), (∀ c ∈ text, c ≠ ' ') →
      splitAux text pos ws = [(ws, pos + text.length)]
  | [], pos, ws, _ => by simp [splitAux]
  | c :: rest, pos, ws, h => by
    have hc : ¬(c = ' ') := h c (List.mem_cons_self c rest)
    rw [splitAux.eq_def]
    simp only [if_neg hc]
    rw [splitAux_no_space rest (pos + 1) ws
      (fun d hd => h d (List.mem_cons_of_mem c hd))]
    simp only [List.length_cons]
    have harith : pos + 1 + rest.length = pos + (rest.length + 1) := by omega
    rw [harith]

theorem splitAux_head :
    ∀ (text : List Char) (pos ws : ℕ),
      ∃ rest', splitAux text pos ws
        = (ws, pos + (text.takeWhile (fun c => ¬(c = ' '))).length) :: rest'
  | [], pos, ws => ⟨[], by simp [splitAux]⟩
  | c :: rest, pos, ws => by
    by_cases h : c = ' '
    · refine ⟨splitAux rest (pos + 1) (pos + 1), ?_⟩
      rw [splitAux.eq_def]
      simp only [if_pos h]
      rw [List.takeWhile_cons, if_neg (by simp [h])]
      rfl
    · obtain ⟨rest', hr⟩ := splitAux_head rest (pos + 1) ws
      refine ⟨rest', ?_⟩
      rw [splitAux.eq_def]
      simp only [if_neg h]
      rw [hr, List.takeWhile_cons, if_pos (by simpa using h), List.length_cons]
      simp only [List.cons.injEq, Prod.mk.injEq, true_and, and_true]
      omega

/-- The first word of `splitWords` always starts at index 0 and ends at the
index of the first space (the length of the space-free leading run). -/
theorem splitWords_head (text : List Char) :
    ∃ rest', splitWords text
      = (0, (text.takeWhile (fun c => ¬(c = ' '))).length) :: rest' := by
  obtain ⟨rest', hr⟩ := splitAux_head text 0 0
  exact ⟨rest', by simpa using hr⟩

/-! ### Helper lemmas about the character-level fallback of `wrap_line` -/

theorem fb_g (f : FontData) (text : List Char) (p : EvalParameters)
    (rem : ℤ) :
    ∀ (k m pcr : ℕ),
      fbLoop f text p rem (List.range' (m + 1) k)
          ((measure f (text.take m) p false).1) m pcr
        = if rem ≤ (measure f (text.take m) p false).1 then pcr
          else
            match (List.range' (m + 1) k).find?
                (fun j => decide (rem ≤ (measure f (text.take j) p false).1)) with
            | some j => j - 1
            | none => m + k
  | 0, m, pcr => by
    rw [List.range'_zero, fbLoop]
    by_cases h : rem ≤ (measure f (text.take m) p false).1
    · rw [if_neg (not_lt.2 h), if_pos h]
    · rw [if_pos (not_le.1 h), if_neg h]
      simp [List.find?]
  | k + 1, m, pcr => by
    rw [List.range'_succ, fbLoop]
    by_cases h : rem ≤ (measure f (text.take m) p false).1
    · rw [if_neg (not_lt.2 h), if_pos h]
    · rw [if_pos (not_le.1 h), if_neg h]
      rw [fb_g f text p rem k (m + 1) m]
      by_cases h2 : rem ≤ (measure f (text.take (m + 1)) p false).1
      · rw [if_pos h2, List.find?_cons_of_pos _ (by simpa using h2)]
        simp
      · rw [if_neg h2, List.find?_cons_of_neg _ (by simpa using h2)]
        cases hf : (List.range' (m + 1 + 1) k).find?
            (fun j => decide (rem ≤ (measure f (text.take j) p false).1)) with
        | none => simp only; omega
        | some j => simp only

theorem fb_main (f : FontData) (text : List Char) (p : EvalParameters)
    (rem : ℤ) :
    fbLoop f text p rem (List.range' 1 (text.length - 1)) 0 0 0
      = fbSpec f text p rem := by
  have h0 : (measure f (text.take 0) p false).1 = 0 := by
    simp [measure, measureWidth, evaluate, evalLoop]
  have hg := fb_g f text p rem (text.length - 1) 0 0
  rw [h0] at hg
  norm_num at hg
  rw [hg]
  by_cases h : rem ≤ 0
  · rw [if_pos h]
    unfold fbSpec
    cases hlen : text.length - 1 with
    | zero => rw [List.range'_zero]; simp [List.find?]
    | succ k =>
      have hw := measure_width_nonneg f (text.take 1) p false
      rw [List.range'_succ, List.find?_cons_of_pos _
        (by simp only [decide_eq_true_eq]; omega)]
  · rw [if_neg h]
    unfold fbSpec
    cases hf : (List.range' 1 (text.length - 1)).find?
        (fun j => decide (rem ≤ (measure f (text.take j) p false).1)) with
    | none => simp only
    | some j => simp only

/-! ### Helper lemmas about the word loop of `wrap_line` -/

theorem wrapLoop_not_start (f : FontData) (text : List Char)
    (p : EvalParameters) :
    ∀ (words : List (ℕ × ℕ)) (rem : ℤ) (lineEnd : ℕ),
      (wrapLoop f text p words rem lineEnd false).2 = none
  | [], _, _ => rfl
  | (ws, we) :: rest, rem, lineEnd => by
    simp only [wrapLoop, Bool.false_eq_true, false_and, if_false,
      Bool.false_and]
    by_cases h : (measure f (wordSeg text ws we) p false).1 > rem
    · rw [if_pos h]
    · rw [if_neg h]
      by_cases h2 : rem - (measure f (wordSeg text ws we) p false).1 < 0
      · rw [if_pos h2]
      · rw [if_neg h2]
        exact wrapLoop_not_start f text p rest _ we

theorem wrapLoop_fb_spaces (f : FontData) (text : List Char)
    (p : EvalParameters) :
    ∀ (words : List (ℕ × ℕ)) (rem : ℤ) (lineEnd : ℕ) (isStart : Bool)
      (fbLe : ℕ),
      (isStart = true → (text.take lineEnd).all (fun c => c = ' ') = true) →
      (wrapLoop f text p words rem lineEnd isStart).2 = some fbLe →
      (text.take fbLe).all (fun c => c = ' ') = true
  | [], _, _, _, _, _, hsnd => by simp [wrapLoop] at hsnd
  | (ws, we) :: rest, rem, lineEnd, isStart, fbLe, hinv, hsnd => by
    simp only [wrapLoop] at hsnd
    by_cases h1 : isStart = true ∧ (measure f (wordSeg text ws we) p false).1 > rem
    · rw [if_pos h1] at hsnd
      simp only [Option.some.injEq] at hsnd
      rw [← hsnd]
      exact hinv h1.1
    · rw [if_neg h1] at hsnd
      by_cases h2 : (measure f (wordSeg text ws we) p false).1 > rem
      · rw [if_pos h2] at hsnd
        simp at hsnd
      · rw [if_neg h2] at hsnd
        by_cases h3 : rem - (measure f (wordSeg text ws we) p false).1 < 0
        · rw [if_pos h3] at hsnd
          simp at hsnd
        · rw [if_neg h3] at hsnd
          refine wrapLoop_fb_spaces f text p rest _ we _ fbLe ?_ hsnd
          intro hs
          rw [Bool.and_eq_true] at hs
          exact hs.2

theorem getGlyph_fromSwfTag (tag : SwfFontTag) (j : ℕ) :
    getGlyph (fromSwfTag tag) j = tag.glyphs.get? j := rfl

/-! ### Claims -/

/-- C1 (corrected): `wrap_line` returns `Some 0` immediately whenever
`offset > width`, i.e. whenever `remaining = width - offset` is strictly
negative — the source's zero-room check is `remaining_width < 0`, not
`remaining_width ≤ 0`, so `offset = width` does not trigger it (see the
counterexample). -/
theorem claim1_zero_room (f : FontData) (text : List Char)
    (p : EvalParameters) (width offset : ℤ) (isStart : Bool)
    (h : width < offset) :
    wrapLine f text p width offset isStart = some 0 := by
  unfold wrapLine
  rw [if_pos (by omega)]

/-- C1 counterexample: with `offset = width` (so `offset ≥ width`) and empty
text, `wrap_line` returns `None`, not `Some 0`, for either value of
`is_start_of_line`. -/
theorem claim1_zero_room_cex :
    (0 : ℤ) ≥ 0
    ∧ wrapLine testFont [] p1024 0 0 false ≠ some 0
    ∧ wrapLine testFont [] p1024 0 0 true ≠ some 0 := by decide

/-- C1 witness: a concrete zero-room call with `offset > width`. -/
theorem claim1_zero_room_witness :
    (100 : ℤ) < 200 ∧ wrapLine testFont (['a']) p1024 100 200 false = some 0 :=
  ⟨by norm_num,
   claim1_zero_room testFont (['a']) p1024 100 200 false (by norm_num)⟩

/-- C2 (corrected): for every call with `is_start_of_line = true` whose
first word — the leading space-free run, measured as the word plus one
trailing space via `wordSeg` (the bare word when it is the whole text) —
has measured width exceeding `remaining = width - offset ≥ 0`, the returned
break index is exactly `fbSpec`: one less than the first fragment length of
`cur_slice = text[word_start..]` (the whole text, since the first word
starts at 0) whose measured width reaches `remaining` (the scan's condition
is a strict `<`), or `cur_slice.length - 1` when every measured fragment
stays below `remaining`. In particular the index can equal the word's start
(when the first character already reaches `remaining`), and a fragment
whose width equals `remaining` exactly is not returned — the claim's
"strictly greater than the word's start" and "largest prefix whose measured
width does not exceed remaining" both fail in general. -/
theorem claim2_overlong_word (f : FontData) (text : List Char)
    (p : EvalParameters) (width offset : ℤ)
    (h0 : 0 ≤ width - offset)
    (hover : width - offset
      < (measure f
          (wordSeg text 0 (text.takeWhile (fun c => ¬(c = ' '))).length)
          p false).1) :
    wrapLine f text p width offset true
      = some (fbSpec f text p (width - offset)) := by
  unfold wrapLine
  rw [if_neg (by omega)]
  obtain ⟨rest', hsplit⟩ := splitWords_head text
  rw [hsplit]
  simp only [wrapLoop]
  rw [if_pos ⟨trivial, hover⟩]
  show some (fallbackScan f text p 0 (width - offset)) = _
  unfold fallbackScan
  simp only [List.drop_zero, Nat.zero_add]
  rw [fb_main]

/-- C2 counterexample: font with `'a'` of scaled advance 200, text `"aa"`,
`width = 150`, `offset = 0`, `is_start_of_line = true`. The word (measured
width 400) exceeds `remaining = 150` at the start of the line, yet the
returned index is `0` — the word's start, not strictly greater than it. -/
theorem claim2_overlong_word_cex :
    (0 : ℤ) ≤ 150 - 0
    ∧ 150 - 0 < (measure testFont (['a', 'a']) p1024 false).1
    ∧ wrapLine testFont (['a', 'a']) p1024 150 0 true = some 0 := by decide

/-- C2 witness: the amended characterization at a concrete multi-word
input, `"aa a"` — the first word is measured together with its trailing
space. -/
theorem claim2_overlong_word_witness :
    wrapLine testFont (['a', 'a', ' ', 'a']) p1024 150 0 true
      = some (fbSpec testFont (['a', 'a', ' ', 'a']) p1024 (150 - 0)) :=
  claim2_overlong_word testFont (['a', 'a', ' ', 'a']) p1024 150 0
    (by norm_num) (by decide)

/-- C3 (corrected): the advance produced for a glyph `L` immediately
followed by `R` is the truncated scaling of `raw advance + kerning
adjustment` — the adjustment is added before scaling, not scaled separately
and then added (the two disagree under truncation; see the counterexample) —
plus the letter spacing; when `params.kerning` is false or the font has no
kerning pairs, the adjustment contributes zero even if present in the
table (the `if` below collapses to the raw advance). -/
theorem claim3_kerning_advance (f : FontData) (p : EvalParameters)
    (cL cR : Char) (rest : List Char) (g : SwfGlyph)
    (h : getGlyphForChar f cL = some g) :
    (evaluate f (cL :: cR :: rest) p).head?.map (fun r => r.advance)
      = some (scaleTrunc
          (g.advance +
            (if hasKerningInfo f && p.kerning then getKerningOffset f cL cR
             else 0))
          p.height f.scale
        + p.letterSpacing) := by
  simp [evaluate, evalLoop, h, scaledAdvance]

/-- C3 counterexample: `kernFont` (advance 1 for `'a'`, kerning adjustment 1
for `('a','b')`, scale 1024) at height 512 (scale factor 1/2). With kerning
on the advance is `trunc((1+1)·½) = 1`; the unkerned advance is
`trunc(1·½) = 0` and the separately scaled adjustment is `trunc(1·½) = 0`,
so "unkerned scaled advance plus the adjustment scaled identically" is `0`,
not the `1` the code produces. -/
theorem claim3_kerning_advance_cex :
    (evaluate kernFont (['a', 'b']) pHalfOn).head?.map (fun r => r.advance)
        = some 1
    ∧ (evaluate kernFont (['a', 'b']) pHalfOff).head?.map (fun r => r.advance)
        = some 0
    ∧ scaleTrunc (getKerningOffset kernFont 'a' 'b') pHalfOn.height
        kernFont.scale = 0
    ∧ (1 : ℤ) ≠ 0 + 0 := by decide

/-- C3 witness: the amended formula at a concrete kerned pair. -/
theorem claim3_kerning_advance_witness :
    (evaluate kernFont (['a', 'b']) pHalfOn).head?.map (fun r => r.advance)
      = some (scaleTrunc
          ((⟨97, 1⟩ : SwfGlyph).advance +
            (if hasKerningInfo kernFont && pHalfOn.kerning then
              getKerningOffset kernFont 'a' 'b'
             else 0))
          pHalfOn.height kernFont.scale
        + pHalfOn.letterSpacing) :=
  claim3_kerning_advance kernFont pHalfOn 'a' 'b' [] ⟨97, 1⟩ (by decide)

/-- C4 (corrected): for a font built by `from_swf_tag`,
`get_glyph_for_char(c)` is `Some` exactly when the low 16 bits of `c`'s
code (`c as u16` truncates) are a key of `code_point_to_glyph`, and the
returned glyph's stored code equals that truncated value. A code point
outside the 16-bit range is NOT treated as not found: it is truncated, so
it can resolve to another character's glyph (see the counterexample). -/
theorem claim4_char_lookup (tag : SwfFontTag) (c : Char) :
    ((getGlyphForChar (fromSwfTag tag) c).isSome
        = (List.lookup (c.toNat % 65536)
            (fromSwfTag tag).codePointToGlyph).isSome)
    ∧ ∀ g, getGlyphForChar (fromSwfTag tag) c = some g →
        g.code = c.toNat % 65536 := by
  constructor
  · unfold getGlyphForChar
    cases hl : List.lookup (c.toNat % 65536)
        (fromSwfTag tag).codePointToGlyph with
    | none => simp
    | some j =>
      obtain ⟨g, hg, _⟩ := lookup_cpg tag (c.toNat % 65536) j hl
      show (getGlyph (fromSwfTag tag) j).isSome = (some j).isSome
      rw [getGlyph_fromSwfTag, hg]
      rfl
  · intro g hgc
    unfold getGlyphForChar at hgc
    cases hl : List.lookup (c.toNat % 65536)
        (fromSwfTag tag).codePointToGlyph with
    | none => rw [hl] at hgc; exact absurd hgc (by simp)
    | some j =>
      rw [hl] at hgc
      obtain ⟨g2, hg2, hcode⟩ := lookup_cpg tag (c.toNat % 65536) j hl
      have hgc2 : getGlyph (fromSwfTag tag) j = some g := hgc
      rw [getGlyph_fromSwfTag, hg2] at hgc2
      cases hgc2
      exact hcode

/-- C4 counterexample: the character `U+10061` has code `65633 ≥ 65536`,
outside the 16-bit range, yet `get_glyph_for_char` resolves it (to the
glyph of `'a'` = 97, its low 16 bits) instead of returning `None`. -/
theorem claim4_char_lookup_cex :
    65536 ≤ (Char.ofNat 65633).toNat
    ∧ getGlyphForChar testFont (Char.ofNat 65633) = some ⟨97, 200⟩ := by
  decide

/-- C4 witness: the stored code of the glyph found for `'a'` equals the
truncated code of `'a'`. -/
theorem claim4_char_lookup_witness :
    (⟨97, 200⟩ : SwfGlyph).code = 'a'.toNat % 65536 :=
  (claim4_char_lookup testTag 'a').2 ⟨97, 200⟩ (by decide)

/-- C5 (corrected): the height returned by `measure` with `round = false`
is `max 0 params.height` for empty text (the fold starts at zero, so a
negative `params.height` is clamped to 0, not returned as-is — see the
counterexample), and for non-empty text it is the maximum of zero and the
vertical translations observed over the glyph callbacks: `max 0
params.height` when at least one character resolves to a glyph, `0` when
none does. -/
theorem claim5_measure_height (f : FontData) (text : List Char)
    (p : EvalParameters) :
    (measure f text p false).2
      = if text.isEmpty then max 0 p.height
        else if (evaluate f text p).isEmpty then 0 else max 0 p.height := by
  show measureHeight f text p false = _
  unfold measureHeight measureHeightRaw
  cases htext : text.isEmpty with
  | true =>
    have htext2 : text = [] := by simpa using htext
    subst htext2
    simp [evaluate, evalLoop]
  | false =>
    simp only [Bool.false_eq_true, if_false]
    cases hrecs : evaluate f text p with
    | nil => simp
    | cons r rest =>
      rw [if_neg (by simp)]
      have hfold := foldl_max_const p.height (r :: rest) 0 (by simp)
      simpa using hfold

/-- C5 counterexample: with `params.height = -20` twips (a representable
`Twips` value) and empty text, `measure` returns height `0`, not
`params.height = -20`. -/
theorem claim5_measure_height_cex :
    pNegHeight.height = -20
    ∧ (measure testFont [] pNegHeight false).2 = 0
    ∧ (0 : ℤ) ≠ -20 := by decide

/-- C6 (corrected): `evaluate` invokes the callback exactly once per
character that resolves to a glyph (the emitted positions are exactly the
enumerated text positions whose character resolves), in strictly increasing
text-position order; each successive cursor value is the previous one plus
the previous glyph's scaled advance (so skipped characters contribute no
advance), and the cursor sequence is monotonically non-decreasing whenever
every emitted advance is nonnegative — but not unconditionally: a negative
letter spacing (or kerning adjustment) makes an advance negative and the
cursor decrease (see the counterexample). -/
theorem claim6_callback_order (f : FontData) (text : List Char)
    (p : EvalParameters) :
    ((evaluate f text p).map (fun r => r.pos)
        = ((enumFrom 0 text).filter
            (fun q => (getGlyphForChar f q.2).isSome)).map (fun q => q.1))
    ∧ List.Chain' (fun a b : ℕ => a < b)
        ((evaluate f text p).map (fun r => r.pos))
    ∧ List.Chain' (fun r s : PlacedGlyph => s.x = r.x + r.advance)
        (evaluate f text p)
    ∧ ((∀ r ∈ evaluate f text p, 0 ≤ r.advance) →
        List.Chain' (fun a b : ℤ => a ≤ b)
          ((evaluate f text p).map (fun r => r.x))) := by
  refine ⟨evalLoop_map_pos f p text 0 0, ?_, evalLoop_chain_x f p text 0 0,
    fun h => evalLoop_x_mono f p text 0 0 h⟩
  show List.Chain' (fun a b : ℕ => a < b)
    ((evalLoop f p text 0 0).map (fun r => r.pos))
  rw [evalLoop_map_pos f p text 0 0]
  exact pos_list_chain f text 0

/-- C6 counterexample: with letter spacing -300 and glyph advance 200 the
scaled advances are negative, and the cursor values observed by the
callback are `[0, -100]` — strictly decreasing, not non-decreasing. -/
theorem claim6_callback_order_cex :
    (evaluate testFont (['a', 'a']) pNegSpacing).map (fun r => r.x)
        = [0, -100]
    ∧ ¬((0 : ℤ) ≤ -100) := by decide

/-- C6 witness: the monotonicity conclusion at a concrete run whose
advances are all nonnegative. -/
theorem claim6_callback_order_witness :
    List.Chain' (fun a b : ℤ => a ≤ b)
      ((evaluate testFont (['a', 'a']) p1024).map (fun r => r.x)) :=
  (claim6_callback_order testFont (['a', 'a']) p1024).2.2.2 (by decide)

/-- C7 (confirmed): the fit checks of `wrap_line` are strict `>`. First, a
text consisting of a single word whose measured width is exactly the
remaining width `width - offset ≥ 0` is accepted onto the line — the call
returns `None` (no break), for either initial `is_start_of_line`. Second,
the character-level fallback is entered only when no word has yet been
accepted on the line: never when `is_start_of_line` is false on entry, and
whenever it is entered the accepted prefix `text[0..line_end]` consists of
spaces only (`wrapLineFb` reports the `line_end` at the moment the fallback
branch is taken). -/
theorem claim7_strict_checks :
    (∀ (f : FontData) (text : List Char) (p : EvalParameters)
        (width offset : ℤ) (isStart : Bool),
        (∀ c ∈ text, c ≠ ' ') →
        (measure f text p false).1 = width - offset →
        0 ≤ width - offset →
        wrapLine f text p width offset isStart = none)
    ∧ (∀ (f : FontData) (text : List Char) (p : EvalParameters)
        (width offset : ℤ),
        wrapLineFb f text p width offset false = none)
    ∧ (∀ (f : FontData) (text : List Char) (p : EvalParameters)
        (width offset : ℤ) (isStart : Bool) (fbLe : ℕ),
        wrapLineFb f text p width offset isStart = some fbLe →
        (text.take fbLe).all (fun c => c = ' ') = true) := by
  refine ⟨?_, ?_, ?_⟩
  · intro f text p width offset isStart hns hm h0
    unfold wrapLine
    rw [if_neg (by omega)]
    have hsplit : splitWords text = [(0, text.length)] := by
      unfold splitWords
      simpa using splitAux_no_space text 0 0 hns
    rw [hsplit]
    have hseg : wordSeg text 0 text.length = text := by
      unfold wordSeg
      rw [if_neg (by omega)]
      simp
    simp only [wrapLoop, hseg, hm]
    rw [if_neg (by intro hc; exact absurd hc.2 (lt_irrefl _)),
      if_neg (lt_irrefl _), if_neg (by omega)]
  · intro f text p width offset
    unfold wrapLineFb
    by_cases h : width - offset < 0
    · rw [if_pos h]
    · rw [if_neg h]
      exact wrapLoop_not_start f text p _ _ 0
  · intro f text p width offset isStart fbLe hfb
    unfold wrapLineFb at hfb
    by_cases h : width - offset < 0
    · rw [if_pos h] at hfb
      exact absurd hfb (by simp)
    · rw [if_neg h] at hfb
      exact wrapLoop_fb_spaces f text p _ _ 0 isStart fbLe
        (fun _ => by simp) hfb

/-- C7 witness: a word whose measured width (200 twips) equals the
remaining width exactly is accepted — no break. -/
theorem claim7_strict_checks_witness :
    wrapLine testFont (['a']) p1024 200 0 true = none :=
  claim7_strict_checks.1 testFont (['a']) p1024 200 0 true
    (by decide) (by decide) (by norm_num)

/-- C8 (confirmed): `with_advanced_rendering` / `with_normal_rendering`
change only the variant tag, carrying `grid_fit`, `thickness` and
`sharpness` over unchanged, and each of `with_sharpness`, `with_thickness`
and `with_grid_fit` replaces exactly its one field while preserving the
other two and the variant. -/
theorem claim8_render_settings (s : TextRenderSettings) (v : ℚ)
    (gf : TextGridFit) :
    (s.withAdvancedRendering.gridFit = s.gridFit
      ∧ s.withAdvancedRendering.thickness = s.thickness
      ∧ s.withAdvancedRendering.sharpness = s.sharpness
      ∧ s.withAdvancedRendering.isAdvanced = true)
    ∧ (s.withNormalRendering.gridFit = s.gridFit
      ∧ s.withNormalRendering.thickness = s.thickness
      ∧ s.withNormalRendering.sharpness = s.sharpness
      ∧ s.withNormalRendering.isAdvanced = false)
    ∧ ((s.withSharpness v).sharpness = v
      ∧ (s.withSharpness v).thickness = s.thickness
      ∧ (s.withSharpness v).gridFit = s.gridFit
      ∧ (s.withSharpness v).isAdvanced = s.isAdvanced)
    ∧ ((s.withThickness v).thickness = v
      ∧ (s.withThickness v).sharpness = s.sharpness
      ∧ (s.withThickness v).gridFit = s.gridFit
      ∧ (s.withThickness v).isAdvanced = s.isAdvanced)
    ∧ ((s.withGridFit gf).gridFit = gf
      ∧ (s.withGridFit gf).thickness = s.thickness
      ∧ (s.withGridFit gf).sharpness = s.sharpness
      ∧ (s.withGridFit gf).isAdvanced = s.isAdvanced) := by
  cases s <;>
    exact ⟨⟨rfl, rfl, rfl, rfl⟩, ⟨rfl, rfl, rfl, rfl⟩, ⟨rfl, rfl, rfl, rfl⟩,
      ⟨rfl, rfl, rfl, rfl⟩, ⟨rfl, rfl, rfl, rfl⟩⟩

/-- C9 (confirmed): for a font built by `from_swf_tag`, every index stored
in `code_point_to_glyph` is a valid index into `glyphs` — `get_glyph` on it
returns `Some`. The record is a plain immutable value, so the invariant
holds for every subsequent operation. -/
theorem claim9_cpg_indices_valid (tag : SwfFontTag) (c idx : ℕ)
    (h : List.lookup c (fromSwfTag tag).codePointToGlyph = some idx) :
    (getGlyph (fromSwfTag tag) idx).isSome = true := by
  obtain ⟨g, hg, _⟩ := lookup_cpg tag c idx h
  rw [getGlyph_fromSwfTag, hg]
  rfl

/-- C9 witness: the invariant at the concrete test font. -/
theorem claim9_cpg_indices_valid_witness :
    List.lookup 97 (fromSwfTag testTag).codePointToGlyph = some 0
    ∧ (getGlyph (fromSwfTag testTag) 0).isSome = true :=
  ⟨by decide, claim9_cpg_indices_valid testTag 97 0 (by decide)⟩

theorem findChar_shift (target : Char) :
    ∀ (l : List Char) (i : ℕ),
      findChar target l i = (findChar target l 0).map (fun j => j + i)
  | [], _ => rfl
  | c :: rest, i => by
    rw [findChar, findChar]
    by_cases h : c = target
    · rw [if_pos h, if_pos h]
      simp
    · rw [if_neg h, if_neg h, findChar_shift target rest (i + 1),
        findChar_shift target rest 1]
      cases findChar target rest 0 with
      | none => rfl
      | some j => simp; omega

theorem fromParts_name :
    ∀ (l : List Char),
      (match findChar nulChar l 0 with
        | some firstNull => l.take firstNull
        | none => l)
        = l.takeWhile (fun c => c ≠ nulChar)
  | [] => rfl
  | c :: rest => by
    rw [findChar]
    by_cases h : c = nulChar
    · rw [if_pos h]
      rw [List.takeWhile_cons]
      rw [if_neg (by simpa using h)]
      rfl
    · rw [if_neg h, findChar_shift nulChar rest 1]
      rw [List.takeWhile_cons, if_pos (by simpa using h)]
      have ih := fromParts_name rest
      cases hf : findChar nulChar rest 0 with
      | none =>
        rw [hf] at ih
        simp only [Option.map_none']
        rw [← ih]
      | some j =>
        rw [hf] at ih
        simp only [Option.map_some']
        rw [← ih]
        rfl

/-- C10 (confirmed): `FontDescriptor::from_parts` truncates the name at the
first NUL character — `class()` returns exactly the prefix of the name
before the first `'\0'` (the whole name when no NUL is present) — and
stores `bold` and `italic` unchanged. -/
theorem claim10_descriptor_truncation (nameArg : List Char)
    (bold italic : Bool) :
    (FontDescriptor.fromParts nameArg bold italic).className
        = nameArg.takeWhile (fun c => c ≠ nulChar)
    ∧ (FontDescriptor.fromParts nameArg bold italic).bold = bold
    ∧ (FontDescriptor.fromParts nameArg bold italic).italic = italic :=
  ⟨fromParts_name nameArg, rfl, rfl⟩

end Font
